import Mathlib

/-!
Shallow embedding of `scripts/generate_agents_md.py`.

The script aggregates the markdown files of a docs directory into one
output file.  Strings are modelled as lists of characters (`Str`), the
source directory as an association list of (filename, content) pairs,
and the Python string operations used by the script (`split`, `join`,
`startswith`, `endswith`, `title`, `replace`, `os.path.splitext`) are
translated one by one below.  Python `str.title`, `Char.toUpper` and
`Char.toLower` agree on ASCII text, which is the alphabet of this
repository's filenames and the range where Lean's character functions
implement the same case mapping.
-/

namespace AgentsMd

abbrev Str := List Char

/-- Coerce a Lean string literal to the character-list model. -/
def str (s : String) : Str := s.data

/-- The three-hyphen frontmatter delimiter `"---"`. -/
def dashes : Str := str "---"

/-- Python `content.startswith("---")`. -/
def startsWithDashes : Str → Bool
  | '-' :: '-' :: '-' :: _ => true
  | _ => false

/-- Python `line.startswith("#")`. -/
def startsWithHash : Str → Bool
  | '#' :: _ => true
  | _ => false

/-- Python `s.split(sep)` for a one-character separator `sep`:
returns the first part and the list of remaining parts. -/
def splitC (sep : Char) : Str → Str × List Str
  | [] => ([], [])
  | c :: rest =>
    if c = sep then ([], (splitC sep rest).1 :: (splitC sep rest).2)
    else (c :: (splitC sep rest).1, (splitC sep rest).2)

/-- Python `s.split(sep)` for a one-character separator, as a list. -/
def splitOnChar (sep : Char) (s : Str) : List Str :=
  (splitC sep s).1 :: (splitC sep s).2

/-- Python `sep.join(parts)`. -/
def pyJoin (sep : Str) : List Str → Str
  | [] => []
  | [p] => p
  | p :: ps => p ++ sep ++ pyJoin sep ps

/-- Python `content.split("\n")`. -/
def linesOf (s : Str) : List Str := splitOnChar '\n' s

/-- Python `"\n".join(lines)`. -/
def joinLines (ls : List Str) : Str := pyJoin (str "\n") ls

/-- The body of the loop in `adjust_header_levels`: a line starting
with `#` gets one extra `#`, every other line is kept unchanged. -/
def demoteLine (line : Str) : Str :=
  if startsWithHash line then '#' :: line else line

/-- `adjust_header_levels` from the script: split into lines, demote
each heading line by one level, and rejoin with newlines. -/
def adjust_header_levels (content : Str) : Str :=
  joinLines ((linesOf content).map demoteLine)

/-- Python `content.split("---")`, first part and remaining parts.
The separator is matched left to right without overlap, exactly as
`str.split` does. -/
def splitDash : Str → Str × List Str
  | '-' :: '-' :: '-' :: rest => ([], (splitDash rest).1 :: (splitDash rest).2)
  | c :: rest => (c :: (splitDash rest).1, (splitDash rest).2)
  | [] => ([], [])

/-- Python `content.split("---")` as a list of parts. -/
def pySplitDashes (s : Str) : List Str :=
  (splitDash s).1 :: (splitDash s).2

/-- Whether a string contains `"---"` as a substring. -/
def hasTripleDash : Str → Bool
  | '-' :: '-' :: '-' :: _ => true
  | _ :: rest => hasTripleDash rest
  | [] => false

/-- The frontmatter-skipping block of `main`:
`if content.startswith("---"): parts = content.split("---");
 if len(parts) > 2: content = "---".join(parts[2:])`. -/
def stripFrontmatter (content : Str) : Str :=
  if startsWithDashes content then
    let parts := pySplitDashes content
    if 2 < parts.length then pyJoin dashes (parts.drop 2)
    else content
  else content

/-- Index of the last `'.'` of a string, if any
(the search `p.rfind('.')` inside `os.path.splitext`). -/
def lastDot : Str → Option Nat
  | [] => none
  | c :: rest =>
    match lastDot rest with
    | some i => some (i + 1)
    | none => if c = '.' then some 0 else none

/-- Python `os.path.splitext(filename)[0]` for a plain filename:
cut at the last dot, except that a dot with only dots before it does
not start an extension (so `".md"` keeps its name unchanged). -/
def splitextStem (p : Str) : Str :=
  match lastDot p with
  | none => p
  | some i => if (p.take i).any (fun c => c ≠ '.') then p.take i else p

/-- Python `s.replace("-", " ")`. -/
def replaceDash (s : Str) : Str :=
  s.map (fun c => if c = '-' then ' ' else c)

/-- Helper of `pyTitle`: the flag records whether the previous
character was a (ASCII) letter, i.e. cased. -/
def pyTitleGo : Bool → Str → Str
  | _, [] => []
  | prevAlpha, c :: rest =>
    if c.isAlpha then
      (if prevAlpha then c.toLower else c.toUpper) :: pyTitleGo true rest
    else
      c :: pyTitleGo false rest

/-- Python `s.title()` on ASCII text: the first letter of every
maximal letter run is uppercased, the following letters lowercased,
and non-letters are kept. -/
def pyTitle (s : Str) : Str := pyTitleGo false s

/-- The title computed for a filename:
`os.path.splitext(filename)[0].replace("-", " ").title()`. -/
def titleOf (filename : Str) : Str :=
  pyTitle (replaceDash (splitextStem filename))

/-- Whether an optional preceding character is an (ASCII) letter. -/
def prevIsAlpha : Option Char → Bool
  | some d => d.isAlpha
  | none => false

/-- The per-character reading of Python `str.title()`: pair every
character with its predecessor (the first has none); a letter is
uppercased when its predecessor is not a letter and lowercased when
it is; every other character is kept. -/
def titleByPred (s : Str) : Str :=
  (s.zip (none :: s.map some)).map
    (fun p => if p.1.isAlpha then
        (if prevIsAlpha p.2 then p.1.toLower else p.1.toUpper)
      else p.1)

/-- The title derivation in the words of the specification: take the
filename without its extension, replace every hyphen with a space,
and capitalize each (space-separated) word's first letter, leaving
the other letters as they are. -/
def capFirst : Str → Str
  | [] => []
  | c :: rest => c.toUpper :: rest

/-- See `capFirst`: the specification's reading of the title rule. -/
def specTitleWords (name : Str) : Str :=
  pyJoin [' ']
    ((splitOnChar ' ' (replaceDash (splitextStem name))).map capFirst)

/-- The filter of the main loop:
`filename.endswith(".md") and filename != "index.md"`. -/
def included (filename : Str) : Bool :=
  (str ".md").isSuffixOf filename && decide (filename ≠ str "index.md")

/-- Everything the script writes for one input file: the title line,
a blank line, the demoted frontmatter-stripped content, and the two
trailing newlines. -/
def sectionFor (filename content : Str) : Str :=
  str "## " ++ titleOf filename ++ str "\n\n" ++
    adjust_header_levels (stripFrontmatter content) ++ str "\n\n"

/-- Python `<` on strings: lexicographic comparison of code points —
here in its non-strict form, used to model `sorted`. -/
def leStr : Str → Str → Bool
  | [], _ => true
  | _ :: _, [] => false
  | a :: s, b :: t =>
    if a.toNat < b.toNat then true
    else if b.toNat < a.toNat then false
    else leStr s t

/-- The ordering of directory entries used by `sorted(os.listdir(...))`:
entries are compared by filename. -/
def nameLe (p q : Str × Str) : Prop := leStr p.1 q.1 = true

instance : DecidableRel nameLe := fun p q =>
  inferInstanceAs (Decidable (leStr p.1 q.1 = true))

/-- A source directory: an association list of filenames and contents.
A real directory never repeats a filename, which the theorems assume
as `(dir.map Prod.fst).Nodup` where it matters. -/
abbrev Dir := List (Str × Str)

/-- `sorted(os.listdir(docs_path))`, carrying each file's content
along with its name. -/
def sortDir (dir : Dir) : Dir := List.insertionSort nameLe dir

/-- The entries the main loop actually processes, in processing
order: the directory sorted by name, keeping only names that end in
`".md"` and are not `"index.md"`. -/
def includedEntries (dir : Dir) : Dir :=
  (sortDir dir).filter (fun p => included p.1)

/-- The byte string the run writes to `AGENTS.md`, given the source
directory.  The output file is opened with mode `"w"`, so its prior
content is truncated and the result is a function of the directory
alone. -/
def runOutput (dir : Dir) : Str :=
  (includedEntries dir).foldl (fun acc p => acc ++ sectionFor p.1 p.2) []

/-!
### The error model of the run

`runExc` keeps the same control flow but makes every filesystem
operation fallible: opening the output file for writing, listing the
source directory, and reading each input file.  The script contains no
`try`/`except`, so a failure anywhere propagates to the caller, which
`Option` models by `none`.
-/

/-- `sorted(os.listdir(docs_path))` on the plain name listing. -/
def sortNames (names : List Str) : List Str :=
  List.insertionSort (fun a b => leStr a b = true) names

instance : DecidableRel (fun (a b : Str) => leStr a b = true) := fun a b =>
  inferInstanceAs (Decidable (leStr a b = true))

/-- The body of the main loop over the sorted, filtered listing: read
each file (which may fail) and concatenate its section. -/
def loopRead (readF : Str → Option Str) : List Str → Option Str
  | [] => some []
  | n :: rest =>
    match readF n with
    | none => none
    | some c =>
      match loopRead readF rest with
      | none => none
      | some out => some (sectionFor n c ++ out)

/-- The whole run against a fallible filesystem: `outOK` is whether
`open(output_file, "w")` succeeds, `listing` is what
`os.listdir(docs_path)` returns (`none` when the directory is
missing), and `readF` reads an input file. -/
def runExc (outOK : Bool) (listing : Option (List Str))
    (readF : Str → Option Str) : Option Str :=
  if outOK then
    match listing with
    | none => none
    | some names => loopRead readF ((sortNames names).filter included)
  else none

/-- A small concrete directory used to instantiate the universally
quantified theorems: two ordinary markdown files listed out of order,
the reserved index file, and a non-markdown file. -/
def exDir : Dir :=
  [(str "b.md", str "B"), (str "a.md", str "# A"),
    (str "index.md", str "I"), (str "notes.txt", str "N")]

/-!
### Ordering lemmas for the sort
-/

theorem leStr_total : ∀ a b : Str, leStr a b = true ∨ leStr b a = true := by
  intro a
  induction a with
  | nil => intro b; left; rfl
  | cons x s ih =>
    intro b
    cases b with
    | nil => right; rfl
    | cons y t =>
      rcases Nat.lt_trichotomy x.toNat y.toNat with h | h | h
      · left; simp [leStr, h]
      · rcases ih t with h' | h' <;>
          [left; right] <;> simp [leStr, h, Nat.lt_irrefl, h']
      · right; simp [leStr, h, Nat.lt_asymm h]

theorem leStr_cons (x y : Char) (s t : Str) :
    leStr (x :: s) (y :: t) = true ↔
      (x.toNat < y.toNat ∨ (x.toNat = y.toNat ∧ leStr s t = true)) := by
  simp only [leStr]
  rcases Nat.lt_trichotomy x.toNat y.toNat with h | h | h
  · simp [h]
  · simp [h, Nat.lt_irrefl]
  · simp [h, Nat.lt_asymm h]
    omega

theorem leStr_trans : ∀ a b c : Str,
    leStr a b = true → leStr b c = true → leStr a c = true := by
  intro a
  induction a with
  | nil => intro b c _ _; rfl
  | cons x s ih =>
    intro b c hab hbc
    cases b with
    | nil => simp [leStr] at hab
    | cons y t =>
      cases c with
      | nil => simp [leStr] at hbc
      | cons z u =>
        rw [leStr_cons] at hab hbc ⊢
        rcases hab with h₁ | ⟨h₁, h₁'⟩ <;> rcases hbc with h₂ | ⟨h₂, h₂'⟩
        · exact Or.inl (Nat.lt_trans h₁ h₂)
        · exact Or.inl (h₂ ▸ h₁)
        · exact Or.inl (h₁ ▸ h₂)
        · exact Or.inr ⟨h₁.trans h₂, ih t u h₁' h₂'⟩

theorem char_eq_of_toNat_eq {a b : Char} (h : a.toNat = b.toNat) : a = b := by
  have hv : a.val = b.val := UInt32.toNat.inj h
  exact Char.eq_of_val_eq hv

theorem leStr_antisymm : ∀ a b : Str,
    leStr a b = true → leStr b a = true → a = b := by
  intro a
  induction a with
  | nil =>
    intro b _ hba
    cases b with
    | nil => rfl
    | cons y t => simp [leStr] at hba
  | cons x s ih =>
    intro b hab hba
    cases b with
    | nil => simp [leStr] at hab
    | cons y t =>
      simp only [leStr] at hab hba
      rcases Nat.lt_trichotomy x.toNat y.toNat with h | h | h
      · simp [h, Nat.lt_asymm h, Nat.lt_irrefl] at hba
      · have hxy : x = y := char_eq_of_toNat_eq h
        subst hxy
        simp only [Nat.lt_irrefl, if_false] at hab hba
        rw [ih t hab hba]
      · simp [h, Nat.lt_asymm h, Nat.lt_irrefl] at hab

instance : IsTotal (Str × Str) nameLe :=
  ⟨fun p q => leStr_total p.1 q.1⟩

instance : IsTrans (Str × Str) nameLe :=
  ⟨fun p q r => leStr_trans p.1 q.1 r.1⟩

instance : IsTotal Str (fun a b => leStr a b = true) := ⟨leStr_total⟩

instance : IsTrans Str (fun a b => leStr a b = true) := ⟨leStr_trans⟩

/-- The strict name order used to state sortedness of the output:
non-strictly ordered and with different names. -/
def nameLt (p q : Str × Str) : Prop :=
  leStr p.1 q.1 = true ∧ p.1 ≠ q.1

theorem nameLt_asymm {p q : Str × Str} (h : nameLt p q) (h' : nameLt q p) :
    False :=
  h.2 (leStr_antisymm p.1 q.1 h.1 h'.1)

/-- Two permuted lists that are both strictly sorted by an asymmetric
relation are equal. -/
theorem eq_of_perm_pairwise {α : Type} {S : α → α → Prop}
    (hasym : ∀ a b, S a b → S b a → False) :
    ∀ l₁ l₂ : List α, l₁.Perm l₂ →
      l₁.Pairwise S → l₂.Pairwise S → l₁ = l₂ := by
  intro l₁
  induction l₁ with
  | nil =>
    intro l₂ hp _ _
    exact (List.Perm.nil_eq hp).symm ▸ rfl
  | cons a t ih =>
    intro l₂ hp h₁ h₂
    cases l₂ with
    | nil => exact absurd hp.symm (by simp)
    | cons b t₂ =>
      by_cases hab : a = b
      · subst hab
        rw [ih t₂ hp.cons_inv (List.pairwise_cons.mp h₁).2
          (List.pairwise_cons.mp h₂).2]
      · have ha2 : a ∈ b :: t₂ := hp.mem_iff.mp (List.mem_cons_self a t)
        have ha : a ∈ t₂ := by
          rcases List.mem_cons.mp ha2 with h | h
          · exact absurd h hab
          · exact h
        have hSba : S b a := (List.pairwise_cons.mp h₂).1 a ha
        have hb1 : b ∈ a :: t := hp.symm.mem_iff.mp (List.mem_cons_self b t₂)
        have hb : b ∈ t := by
          rcases List.mem_cons.mp hb1 with h | h
          · exact absurd h.symm hab
          · exact h
        have hSab : S a b := (List.pairwise_cons.mp h₁).1 b hb
        exact absurd hSab (fun h => hasym a b h hSba)

theorem sortDir_perm (dir : Dir) : (sortDir dir).Perm dir :=
  List.perm_insertionSort nameLe dir

theorem sortDir_sorted (dir : Dir) : (sortDir dir).Pairwise nameLe :=
  List.sorted_insertionSort nameLe dir

/-- With distinct filenames the sorted directory is strictly sorted. -/
theorem sortDir_pairwise_nameLt (dir : Dir)
    (hnd : (dir.map Prod.fst).Nodup) :
    (sortDir dir).Pairwise nameLt := by
  have hperm : ((sortDir dir).map Prod.fst).Perm (dir.map Prod.fst) :=
    (sortDir_perm dir).map Prod.fst
  have hnd' : ((sortDir dir).map Prod.fst).Nodup := hperm.symm.nodup hnd
  have hne : (sortDir dir).Pairwise (fun p q : Str × Str => p.1 ≠ q.1) :=
    List.pairwise_map.mp hnd'
  exact ((sortDir_sorted dir).and hne :)

/-- Sorting is insensitive to the order the directory was listed in,
as long as filenames are distinct. -/
theorem sortDir_eq_of_perm (d₁ d₂ : Dir) (hp : d₁.Perm d₂)
    (hnd : (d₁.map Prod.fst).Nodup) : sortDir d₁ = sortDir d₂ := by
  have hnd₂ : (d₂.map Prod.fst).Nodup := (hp.map Prod.fst).nodup hnd
  exact eq_of_perm_pairwise (fun p q => nameLt_asymm)
    (sortDir d₁) (sortDir d₂)
    ((sortDir_perm d₁).trans (hp.trans (sortDir_perm d₂).symm))
    (sortDir_pairwise_nameLt d₁ hnd)
    (sortDir_pairwise_nameLt d₂ hnd₂)

/-!
### Splitting and joining
-/

theorem pyJoin_cons_cons (sep : Str) (c : Char) (l : Str) (ls : List Str) :
    pyJoin sep ((c :: l) :: ls) = c :: pyJoin sep (l :: ls) := by
  cases ls with
  | nil => rfl
  | cons l' t => simp [pyJoin]

theorem pyJoin_two (sep : Str) (p q : Str) (t : List Str) :
    pyJoin sep (p :: q :: t) = p ++ sep ++ pyJoin sep (q :: t) := rfl

/-- `"\n".join(content.split("\n")) == content`. -/
theorem pyJoin_splitOnChar (sep : Char) (s : Str) :
    pyJoin [sep] (splitOnChar sep s) = s := by
  induction s with
  | nil => rfl
  | cons c rest ih =>
    by_cases h : c = sep
    · subst h
      simp only [splitOnChar, splitC, if_pos rfl]
      exact congrArg (c :: ·) ih
    · simp only [splitOnChar, splitC, if_neg h]
      rw [pyJoin_cons_cons]
      exact congrArg (c :: ·) ih

/-- No part produced by a single-character split contains the
separator. -/
theorem splitOnChar_no_sep (sep : Char) (s : Str) :
    ∀ l ∈ splitOnChar sep s, sep ∉ l := by
  induction s with
  | nil =>
    intro l hl
    simp [splitOnChar, splitC] at hl
    simp [hl]
  | cons c rest ih =>
    intro l hl
    by_cases h : c = sep
    · subst h
      simp only [splitOnChar, splitC, if_pos rfl, List.mem_cons] at hl
      rcases hl with rfl | hl
      · simp
      · exact ih l hl
    · simp only [splitOnChar, splitC, if_neg h, List.mem_cons] at hl
      rcases hl with rfl | hl
      · intro hmem
        rcases List.mem_cons.mp hmem with rfl | hmem
        · exact h rfl
        · exact ih _ (List.mem_cons_self _ _) hmem
      · exact ih l (List.mem_cons.mpr (Or.inr hl))

theorem splitOnChar_of_no_sep (sep : Char) (l : Str) (h : sep ∉ l) :
    splitOnChar sep l = [l] := by
  induction l with
  | nil => rfl
  | cons c rest ih =>
    have hc : ¬c = sep := fun hc => h (hc ▸ List.mem_cons_self c rest)
    have hr : sep ∉ rest := fun hr => h (List.mem_cons.mpr (Or.inr hr))
    simp only [splitOnChar, splitC, if_neg hc]
    have := ih hr
    simp only [splitOnChar] at this
    rw [List.cons.injEq] at this
    rw [this.1, this.2]

theorem splitOnChar_append (sep : Char) (l rest : Str) (h : sep ∉ l) :
    splitOnChar sep (l ++ sep :: rest) =
      l :: splitOnChar sep rest := by
  induction l with
  | nil => simp [splitOnChar, splitC]
  | cons c t ih =>
    have hc : ¬c = sep := fun hc => h (hc ▸ List.mem_cons_self c t)
    have ht : sep ∉ t := fun hr => h (List.mem_cons.mpr (Or.inr hr))
    have := ih ht
    simp only [splitOnChar] at this ⊢
    simp only [List.cons_append, splitC, if_neg hc, List.append_eq]
    rw [List.cons.injEq] at this
    rw [this.1, this.2]

/-- `content.split("\n")` inverts `"\n".join(lines)` when no line
contains a newline. -/
theorem splitOnChar_pyJoin (sep : Char) :
    ∀ ls : List Str, ls ≠ [] → (∀ l ∈ ls, sep ∉ l) →
      splitOnChar sep (pyJoin [sep] ls) = ls := by
  intro ls
  induction ls with
  | nil => intro h; exact absurd rfl h
  | cons l t ih =>
    intro _ hno
    cases t with
    | nil =>
      exact splitOnChar_of_no_sep sep l (hno l (List.mem_cons_self _ _))
    | cons l' t' =>
      have : pyJoin [sep] (l :: l' :: t') = l ++ sep :: pyJoin [sep] (l' :: t') := by
        simp [pyJoin]
      rw [this, splitOnChar_append sep l _ (hno l (List.mem_cons_self _ _)),
        ih (by simp) (fun x hx => hno x (List.mem_cons.mpr (Or.inr hx)))]

/-!
### The three-hyphen split
-/

theorem splitDash_cons_not_dashes (c : Char) (rest : Str)
    (h : ∀ r', c = '-' → rest = '-' :: '-' :: r' → False) :
    splitDash (c :: rest) = (c :: (splitDash rest).1, (splitDash rest).2) := by
  rw [splitDash.eq_def]
  split
  case h_1 r' heq =>
    injection heq with h1 h2
    exact (h r' h1 h2).elim
  case h_2 c' rest' hx heq =>
    injection heq with h1 h2
    subst h1
    subst h2
    rfl
  case h_3 heq => cases heq

theorem hasTripleDash_cons_not_dashes (c : Char) (rest : Str)
    (h : ∀ r', c = '-' → rest = '-' :: '-' :: r' → False) :
    hasTripleDash (c :: rest) = hasTripleDash rest := by
  rw [hasTripleDash.eq_def]
  split
  case h_1 r' heq =>
    injection heq with h1 h2
    exact (h r' h1 h2).elim
  case h_2 c' rest' hx heq =>
    injection heq with h1 h2
    subst h1
    subst h2
    rfl
  case h_3 heq => cases heq

/-- `"---".join(content.split("---")) == content`: the split is a
decomposition of the original string. -/
theorem pyJoin_pySplitDashes (s : Str) :
    pyJoin dashes (pySplitDashes s) = s := by
  induction s using splitDash.induct with
  | case1 rest ih =>
    show pyJoin dashes ([] :: (splitDash rest).1 :: (splitDash rest).2) = _
    simp only [pyJoin]
    exact congrArg (fun t => '-' :: '-' :: '-' :: t) ih
  | case2 c rest h ih =>
    unfold pySplitDashes
    rw [splitDash_cons_not_dashes c rest h, pyJoin_cons_cons]
    exact congrArg (c :: ·) ih
  | case3 => rfl

/-- The first part of the split is a prefix of the string. -/
theorem splitDash_fst_prefix (s : Str) : (splitDash s).1 <+: s := by
  induction s using splitDash.induct with
  | case1 rest ih => exact ⟨'-' :: '-' :: '-' :: rest, rfl⟩
  | case2 c rest h ih =>
    rw [splitDash_cons_not_dashes c rest h]
    exact (List.prefix_cons_inj c).mpr ih
  | case3 => exact ⟨[], rfl⟩

/-- The first part of the split never contains the separator. -/
theorem splitDash_fst_no_dash (s : Str) :
    hasTripleDash (splitDash s).1 = false := by
  induction s using splitDash.induct with
  | case1 rest ih => rfl
  | case2 c rest h ih =>
    rw [splitDash_cons_not_dashes c rest h]
    have hok : ∀ r', c = '-' → (splitDash rest).1 = '-' :: '-' :: r' → False := by
      intro r' hc hfst
      rcases splitDash_fst_prefix rest with ⟨t, ht⟩
      exact h (r' ++ t) hc (by rw [← ht, hfst]; rfl)
    rw [hasTripleDash_cons_not_dashes c _ hok]
    exact ih
  | case3 => rfl

/-- No part of the split contains the separator. -/
theorem splitDash_snd_no_dash (s : Str) :
    ∀ q ∈ (splitDash s).2, hasTripleDash q = false := by
  induction s using splitDash.induct with
  | case1 rest ih =>
    intro q hq
    have hq' : q ∈ (splitDash rest).1 :: (splitDash rest).2 := hq
    rcases List.mem_cons.mp hq' with rfl | hq
    · exact splitDash_fst_no_dash rest
    · exact ih q hq
  | case2 c rest h ih =>
    intro q hq
    rw [splitDash_cons_not_dashes c rest h] at hq
    exact ih q hq
  | case3 => intro q hq; cases hq

theorem startsWithDashes_iff (s : Str) :
    startsWithDashes s = true ↔ ∃ r, s = '-' :: '-' :: '-' :: r := by
  rw [startsWithDashes.eq_def]
  split
  case h_1 r => exact ⟨fun _ => ⟨r, rfl⟩, fun _ => rfl⟩
  case h_2 x h =>
    constructor
    · intro hc; cases hc
    · rintro ⟨r, hr⟩
      exact (h r hr).elim

/-!
### Lines of the demoted content
-/

/-- The effect of `adjust_header_levels`, line by line: the lines of
the result are the lines of the input, each passed through
`demoteLine`. -/
theorem linesOf_adjust (s : Str) :
    linesOf (adjust_header_levels s) = (linesOf s).map demoteLine := by
  have h1 : ∀ l ∈ (linesOf s).map demoteLine, '\n' ∉ l := by
    intro l hl
    rcases List.mem_map.mp hl with ⟨l₀, hl₀, rfl⟩
    have hno : '\n' ∉ l₀ := splitOnChar_no_sep '\n' s l₀ hl₀
    unfold demoteLine
    split
    · intro hm
      rcases List.mem_cons.mp hm with h | h
      · exact absurd h (by decide)
      · exact hno h
    · exact hno
  have h2 : (linesOf s).map demoteLine ≠ [] := by
    simp [linesOf, splitOnChar]
  show splitOnChar '\n' (pyJoin (str "\n") ((linesOf s).map demoteLine)) = _
  have hsep : str "\n" = ['\n'] := rfl
  rw [hsep]
  exact splitOnChar_pyJoin '\n' _ h2 h1

/-!
### Characterising the title case
-/

theorem pyTitleGo_eq_zip (s : Str) : ∀ p : Option Char,
    pyTitleGo (prevIsAlpha p) s =
      (s.zip (p :: s.map some)).map
        (fun q => if q.1.isAlpha then
            (if prevIsAlpha q.2 then q.1.toLower else q.1.toUpper)
          else q.1) := by
  induction s with
  | nil => intro p; rfl
  | cons c rest ih =>
    intro p
    have htail := ih (some c)
    have hpc : prevIsAlpha (some c) = c.isAlpha := rfl
    rw [hpc] at htail
    by_cases hc : c.isAlpha
    · rw [hc] at htail
      simp only [pyTitleGo, hc, List.zip_cons_cons, List.map_cons]
      rw [htail]
      simp [hc]
    · have hcf : c.isAlpha = false := by simpa using hc
      rw [hcf] at htail
      simp only [pyTitleGo, hcf, List.zip_cons_cons, List.map_cons]
      rw [htail]
      simp [hcf]

/-- Python `str.title()` equals its predecessor-based reading. -/
theorem pyTitle_eq_titleByPred (s : Str) : pyTitle s = titleByPred s :=
  pyTitleGo_eq_zip s none

/-!
### The error model, unfolded
-/

theorem loopRead_none_iff (readF : Str → Option Str) :
    ∀ l : List Str, loopRead readF l = none ↔ ∃ n ∈ l, readF n = none := by
  intro l
  induction l with
  | nil => simp [loopRead]
  | cons n rest ih =>
    have hunf : loopRead readF (n :: rest) =
        (match readF n with
          | none => none
          | some c =>
            match loopRead readF rest with
            | none => none
            | some out => some (sectionFor n c ++ out)) := rfl
    rw [hunf]
    cases h : readF n with
    | none =>
      exact ⟨fun _ => ⟨n, List.mem_cons_self n rest, h⟩, fun _ => rfl⟩
    | some c =>
      cases hr : loopRead readF rest with
      | none =>
        constructor
        · intro _
          rcases ih.mp hr with ⟨m, hm, hmf⟩
          exact ⟨m, List.mem_cons.mpr (Or.inr hm), hmf⟩
        · intro _; rfl
      | some out =>
        constructor
        · intro hcontra; cases hcontra
        · rintro ⟨m, hm, hmf⟩
          rcases List.mem_cons.mp hm with rfl | hm
          · rw [h] at hmf; cases hmf
          · have hnone : loopRead readF rest = none := ih.mpr ⟨m, hm, hmf⟩
            rw [hr] at hnone; cases hnone

/-- Writing section by section appends the concatenation of the
sections to what was already written. -/
theorem foldl_sections (l : Dir) :
    ∀ acc : Str,
      l.foldl (fun a p => a ++ sectionFor p.1 p.2) acc =
        acc ++ (l.map (fun p => sectionFor p.1 p.2)).flatten := by
  induction l with
  | nil => intro acc; simp
  | cons p t ih =>
    intro acc
    simp [List.foldl_cons, ih, List.append_assoc]

/-!
## The claims
-/

/-- C1 (counterexample): on exactly the directory of the claim —
`a-doc.md`, `b-doc.md` with frontmatter, and `index.md` — the run
does not write the byte string the claim predicts.  Stripping the
frontmatter of `b-doc.md` leaves a body that starts with the newline
that followed the closing delimiter, so a third newline stands
between `## B Doc` and `## B`. -/
theorem c1_counterexample :
    runOutput [(str "a-doc.md", str "# A\nhello"),
      (str "b-doc.md", str "---\ntitle: x\n---\n# B\nworld"),
      (str "index.md", str "any")] ≠
      str "## A Doc\n\n## A\nhello\n\n## B Doc\n\n## B\nworld\n\n" := by
  decide

/-- C1 (amended): for the source directory holding exactly
`a-doc.md` with `# A\nhello`, `b-doc.md` with
`---\ntitle: x\n---\n# B\nworld` and `index.md` with arbitrary
content, the run writes exactly
`## A Doc\n\n## A\nhello\n\n## B Doc\n\n\n## B\nworld\n\n` —
the claim's string with one extra newline, because the stripped body
of `b-doc.md` begins with a newline. -/
theorem c1_end_to_end (idx : Str) :
    runOutput [(str "a-doc.md", str "# A\nhello"),
      (str "b-doc.md", str "---\ntitle: x\n---\n# B\nworld"),
      (str "index.md", idx)] =
      str "## A Doc\n\n## A\nhello\n\n## B Doc\n\n\n## B\nworld\n\n" := rfl

/-- C2 (counterexample): the content `---x---y` has no leading line
consisting of three hyphens (its only line is `---x---y`), yet the
run does not pass it through: the emitted content is `y`, not the
demotion of the input (which would leave it unchanged). -/
theorem c2_counterexample :
    (linesOf (str "---x---y")).head? = some (str "---x---y") ∧
    str "---x---y" ≠ str "---" ∧
    adjust_header_levels (stripFrontmatter (str "---x---y")) = str "y" ∧
    adjust_header_levels (str "---x---y") = str "---x---y" := by
  decide

/-- C2 (amended): for every input file whose content does not begin
with the three-character prefix `---`, frontmatter stripping is not
triggered, and the per-file output content is the input content with
header demotion applied and nothing else. -/
theorem c2_no_dashes_passthrough (n c : Str)
    (h : startsWithDashes c = false) :
    stripFrontmatter c = c ∧
    sectionFor n c = str "## " ++ titleOf n ++ str "\n\n" ++
      adjust_header_levels c ++ str "\n\n" := by
  have h1 : stripFrontmatter c = c := by
    unfold stripFrontmatter
    rw [h]
    rfl
  refine ⟨h1, ?_⟩
  unfold sectionFor
  rw [h1]

/-- C2 (witness): the amended theorem applied to the file `a.md` with
content `# x\nhi`. -/
theorem c2_witness :
    startsWithDashes (str "# x\nhi") = false ∧
    (stripFrontmatter (str "# x\nhi") = str "# x\nhi" ∧
      sectionFor (str "a.md") (str "# x\nhi") =
        str "## " ++ titleOf (str "a.md") ++ str "\n\n" ++
          adjust_header_levels (str "# x\nhi") ++ str "\n\n") :=
  ⟨by decide, c2_no_dashes_passthrough (str "a.md") (str "# x\nhi") (by decide)⟩

/-- C5 (counterexample): for the filename `ab-cD.md` the code's
title is `Ab Cd` — Python `str.title()` lowercases the letters after
the first of each word — while deriving the title by capitalizing
each word's first letter and changing nothing else yields `Ab CD`. -/
theorem c5_counterexample :
    titleOf (str "ab-cD.md") = str "Ab Cd" ∧
    specTitleWords (str "ab-cD.md") = str "Ab CD" ∧
    titleOf (str "ab-cD.md") ≠ specTitleWords (str "ab-cD.md") := by
  decide

/-- C5 (amended): the section title is derived by taking the
filename without its extension, replacing every hyphen with a space,
and then title-casing as Python does: every letter whose preceding
character is not a letter is uppercased and every letter whose
preceding character is a letter is lowercased; the title is written
as a level-2 heading followed by a blank line, and `my-doc-name.md`
yields the heading `My Doc Name`. -/
theorem c5_title (name : Str) :
    titleOf name = titleByPred (replaceDash (splitextStem name)) ∧
    (∀ content, sectionFor name content =
      str "## " ++ titleOf name ++ str "\n\n" ++
        adjust_header_levels (stripFrontmatter content) ++ str "\n\n") ∧
    titleOf (str "my-doc-name.md") = str "My Doc Name" :=
  ⟨pyTitle_eq_titleByPred _, fun _ => rfl, by decide⟩

/-- C6: header demotion maps every line beginning with `#` to the
same line with exactly one `#` prepended and copies every other line
unchanged; `# Title` becomes `## Title` and `### Sub` becomes
`#### Sub`. -/
theorem c6_demotion (s : Str) :
    linesOf (adjust_header_levels s) = (linesOf s).map demoteLine ∧
    (∀ l, startsWithHash l = true → demoteLine l = '#' :: l) ∧
    (∀ l, startsWithHash l = false → demoteLine l = l) ∧
    adjust_header_levels (str "# Title") = str "## Title" ∧
    adjust_header_levels (str "### Sub") = str "#### Sub" ∧
    adjust_header_levels (str "plain text") = str "plain text" := by
  refine ⟨linesOf_adjust s, ?_, ?_, by decide, by decide, by decide⟩
  · intro l hl
    unfold demoteLine
    rw [hl]
    rfl
  · intro l hl
    unfold demoteLine
    rw [hl]
    rfl

/-- C6 (witness): the demotion theorem instantiated on a two-line
content with one heading line. -/
theorem c6_witness :
    linesOf (adjust_header_levels (str "intro\n# A\ntext")) =
      (linesOf (str "intro\n# A\ntext")).map demoteLine ∧
    (∀ l, startsWithHash l = true → demoteLine l = '#' :: l) ∧
    (∀ l, startsWithHash l = false → demoteLine l = l) ∧
    adjust_header_levels (str "# Title") = str "## Title" ∧
    adjust_header_levels (str "### Sub") = str "#### Sub" ∧
    adjust_header_levels (str "plain text") = str "plain text" :=
  c6_demotion (str "intro\n# A\ntext")

/-- C9 (counterexample): the file named `.md` does pass the
inclusion filter, but its section heading is `## .Md`, not the empty
heading `## `: `os.path.splitext` keeps a leading dot as part of the
stem, and `.title()` turns `.md` into `.Md`. -/
theorem c9_counterexample :
    included (str ".md") = true ∧
    titleOf (str ".md") = str ".Md" ∧
    sectionFor (str ".md") (str "body") ≠
      str "## \n\n" ++ adjust_header_levels (str "body") ++ str "\n\n" := by
  decide

/-- C9 (amended): a file whose name is exactly `.md` passes the
inclusion filter, its stem is the whole name `.md` (a leading dot is
not an extension separator), and its section is emitted with the
heading `## .Md` followed by a blank line. -/
theorem c9_dot_md (content : Str) :
    included (str ".md") = true ∧
    splitextStem (str ".md") = str ".md" ∧
    sectionFor (str ".md") content =
      str "## .Md\n\n" ++
        adjust_header_levels (stripFrontmatter content) ++ str "\n\n" :=
  ⟨rfl, rfl, rfl⟩

/-- C3: for content beginning with the three-hyphen delimiter,
if splitting on `---` yields more than two parts the result drops
everything up to and including the second delimiter occurrence —
the content decomposes as `--- <fm> --- <rest>` with a
delimiter-free `fm`, and the kept `rest` is the remaining parts
rejoined verbatim with `---`; with two or fewer parts the content is
unchanged; and in every case the section emits the demotion of the
stripped content. -/
theorem c3_frontmatter (c : Str) (h : startsWithDashes c = true) :
    (2 < (pySplitDashes c).length →
      stripFrontmatter c = pyJoin dashes ((pySplitDashes c).drop 2) ∧
      ∃ fm, hasTripleDash fm = false ∧
        c = dashes ++ fm ++ dashes ++ stripFrontmatter c) ∧
    ((pySplitDashes c).length ≤ 2 → stripFrontmatter c = c) ∧
    (∀ n, sectionFor n c = str "## " ++ titleOf n ++ str "\n\n" ++
      adjust_header_levels (stripFrontmatter c) ++ str "\n\n") := by
  refine ⟨?_, ?_, fun n => rfl⟩
  · intro hlen
    have hstrip : stripFrontmatter c =
        pyJoin dashes ((pySplitDashes c).drop 2) := by
      unfold stripFrontmatter
      rw [h]
      simp [hlen]
    refine ⟨hstrip, ?_⟩
    rcases (startsWithDashes_iff c).mp h with ⟨r, rfl⟩
    have hsplit : pySplitDashes ('-' :: '-' :: '-' :: r) =
        [] :: (splitDash r).1 :: (splitDash r).2 := rfl
    refine ⟨(splitDash r).1, splitDash_fst_no_dash r, ?_⟩
    have hstrip2 : stripFrontmatter ('-' :: '-' :: '-' :: r) =
        pyJoin dashes (splitDash r).2 := by
      rw [hstrip]
      rfl
    rw [hstrip2]
    cases hsnd : (splitDash r).2 with
    | nil =>
      rw [hsplit, hsnd] at hlen
      simp at hlen
    | cons p₂ ps' =>
      have hr : pyJoin dashes (pySplitDashes r) = r := pyJoin_pySplitDashes r
      have key : r = (splitDash r).1 ++ dashes ++ pyJoin dashes (p₂ :: ps') := by
        conv_lhs => rw [← hr]
        unfold pySplitDashes
        rw [hsnd, pyJoin_two]
      conv_lhs => rw [key]
      simp only [List.append_assoc]
      rfl
  · intro hlen
    unfold stripFrontmatter
    rw [h]
    simp [Nat.not_lt.mpr hlen]

/-- C3 (witness): the theorem applied to a well-formed frontmatter
file `---\nt: 1\n---\n# B\nbody`. -/
theorem c3_witness :
    startsWithDashes (str "---\nt: 1\n---\n# B\nbody") = true ∧
    ((2 < (pySplitDashes (str "---\nt: 1\n---\n# B\nbody")).length →
      stripFrontmatter (str "---\nt: 1\n---\n# B\nbody") =
        pyJoin dashes
          ((pySplitDashes (str "---\nt: 1\n---\n# B\nbody")).drop 2) ∧
      ∃ fm, hasTripleDash fm = false ∧
        str "---\nt: 1\n---\n# B\nbody" =
          dashes ++ fm ++ dashes ++
            stripFrontmatter (str "---\nt: 1\n---\n# B\nbody")) ∧
    ((pySplitDashes (str "---\nt: 1\n---\n# B\nbody")).length ≤ 2 →
      stripFrontmatter (str "---\nt: 1\n---\n# B\nbody") =
        str "---\nt: 1\n---\n# B\nbody") ∧
    (∀ n, sectionFor n (str "---\nt: 1\n---\n# B\nbody") =
      str "## " ++ titleOf n ++ str "\n\n" ++
        adjust_header_levels
          (stripFrontmatter (str "---\nt: 1\n---\n# B\nbody")) ++
          str "\n\n")) :=
  ⟨by decide, c3_frontmatter (str "---\nt: 1\n---\n# B\nbody") (by decide)⟩

/-- C4: the output is the concatenation, in ascending lexicographic
filename order, of the sections of exactly those directory entries
whose name ends in `.md` and is not `index.md`. -/
theorem c4_sorted_filtered (dir : Dir) (hnd : (dir.map Prod.fst).Nodup) :
    runOutput dir =
      ((includedEntries dir).map (fun p => sectionFor p.1 p.2)).flatten ∧
    (includedEntries dir).Pairwise nameLt ∧
    (∀ p : Str × Str,
      p ∈ includedEntries dir ↔ p ∈ dir ∧ included p.1 = true) ∧
    (∀ p ∈ includedEntries dir,
      (str ".md").isSuffixOf p.1 = true ∧ p.1 ≠ str "index.md") := by
  refine ⟨?_, ?_, ?_, ?_⟩
  · unfold runOutput
    rw [foldl_sections]
    rfl
  · exact (sortDir_pairwise_nameLt dir hnd).filter _
  · intro p
    unfold includedEntries
    rw [List.mem_filter]
    constructor
    · rintro ⟨hp, hinc⟩
      exact ⟨(sortDir_perm dir).mem_iff.mp hp, hinc⟩
    · rintro ⟨hp, hinc⟩
      exact ⟨(sortDir_perm dir).mem_iff.mpr hp, hinc⟩
  · intro p hp
    have hinc : included p.1 = true :=
      (List.mem_filter.mp hp).2
    unfold included at hinc
    rw [Bool.and_eq_true] at hinc
    exact ⟨hinc.1, of_decide_eq_true hinc.2⟩

/-- C4 (witness): the theorem applied to the concrete directory
`exDir`, whose listing is out of order and holds an index file and a
non-markdown file. -/
theorem c4_witness :
    (exDir.map Prod.fst).Nodup ∧
    (runOutput exDir =
      ((includedEntries exDir).map (fun p => sectionFor p.1 p.2)).flatten ∧
    (includedEntries exDir).Pairwise nameLt ∧
    (∀ p : Str × Str,
      p ∈ includedEntries exDir ↔ p ∈ exDir ∧ included p.1 = true) ∧
    (∀ p ∈ includedEntries exDir,
      (str ".md").isSuffixOf p.1 = true ∧ p.1 ≠ str "index.md")) :=
  ⟨by decide, c4_sorted_filtered exDir (by decide)⟩

/-- C7: the run is deterministic and idempotent — any two listings
of the same directory contents (permutations of each other, with
distinct filenames) produce byte-identical output, independently of
any prior content of the output file, which `runOutput` never reads. -/
theorem c7_deterministic (d₁ d₂ : Dir) (hp : d₁.Perm d₂)
    (hnd : (d₁.map Prod.fst).Nodup) : runOutput d₁ = runOutput d₂ := by
  unfold runOutput includedEntries
  rw [sortDir_eq_of_perm d₁ d₂ hp hnd]

/-- C7 (witness): two listing orders of the same two files give the
same output. -/
theorem c7_witness :
    ([(str "b.md", str "B"), (str "a.md", str "A")] : Dir).Perm
      [(str "a.md", str "A"), (str "b.md", str "B")] ∧
    (([(str "b.md", str "B"), (str "a.md", str "A")] : Dir).map
      Prod.fst).Nodup ∧
    runOutput [(str "b.md", str "B"), (str "a.md", str "A")] =
      runOutput [(str "a.md", str "A"), (str "b.md", str "B")] :=
  ⟨List.Perm.swap _ _ _, by decide,
    c7_deterministic _ _ (List.Perm.swap _ _ _) (by decide)⟩

/-- C8: the run fails exactly when a filesystem operation fails —
the output path is unwritable, the source directory cannot be
listed, or some included input file is unreadable.  Nothing is
caught inside the run, and the file contents never appear in the
failure condition: malformed frontmatter cannot cause a failure. -/
theorem c8_fails_iff (outOK : Bool) (names : List Str)
    (readF : Str → Option Str) :
    (runExc outOK (some names) readF = none ↔
      outOK = false ∨
        ∃ n ∈ (sortNames names).filter included, readF n = none) ∧
    runExc outOK none readF = none := by
  constructor
  · cases outOK
    · simp [runExc]
    · show loopRead readF ((sortNames names).filter included) = none ↔ _
      rw [loopRead_none_iff]
      constructor
      · exact fun h => Or.inr h
      · rintro (hc | h)
        · cases hc
        · exact h
  · cases outOK <;> simp [runExc]

/-- C10: when no directory entry passes the inclusion filter the run
still succeeds and writes nothing: the output is the empty byte
string left by opening the output file for (truncating) writing. -/
theorem c10_no_included (names : List Str) (readF : Str → Option Str)
    (h : ∀ n ∈ names, included n = false) :
    runExc true (some names) readF = some [] := by
  have hfil : (sortNames names).filter included = [] := by
    rw [List.filter_eq_nil_iff]
    intro a ha
    have ha' : a ∈ names :=
      (List.perm_insertionSort _ names).mem_iff.mp ha
    simp [h a ha']
  show loopRead readF ((sortNames names).filter included) = some []
  rw [hfil]
  rfl

/-- C10 (witness): a directory holding only `index.md` and a
non-markdown file yields the empty output even though no file is
readable. -/
theorem c10_witness :
    (∀ n ∈ [str "index.md", str "notes.txt"], included n = false) ∧
    runExc true (some [str "index.md", str "notes.txt"])
      (fun _ => none) = some [] :=
  ⟨by decide, c10_no_included _ _ (by decide)⟩

end AgentsMd
